import Mathlib

/-!
Verification development for the `parse-bookmarks` program: a shallow
embedding of its data model (`Bookmark`), timestamp parsing (`parseTime`),
DOM extraction (`parseBookmarks` over an element-tree model of the parsed
HTML document), tree assembly (`findRootFolder`, `buildSubTree`,
`buildTree`, with an explicit fuel parameter standing for the call stack,
since the recursion in the source has no termination guard), and JSON
serialization (`marshal`, `renderJson`).

Conventions of the embedding:
- machine integers are `Int`/`Nat` with the 64-bit range check made
  explicit where the source checks it (`strconv.ParseInt`);
- `time.Time` values are represented by their Unix epoch seconds
  (the only component the program ever computes with);
- the repository contains two extraction variants: one collects the flat
  records in a slice in document order, the other keys them in a Go map by
  title (last write wins) and emits the values in an unspecified map
  iteration order; both are embedded, the map iteration order being an
  explicit parameter of any statement about the second variant;
- `fmt.Println` reporting in `buildTree` is modelled by a list of log lines
  paired with the result; nontermination of the unguarded recursion is
  modelled by fuel exhaustion (`none`).
-/

/-- The bookmark record of the source: title, URL, transient parent title,
child list, and the two optional timestamps (Unix epoch seconds). -/
inductive Bookmark where
  | mk (title url parent : String) (bookmarks : List Bookmark)
       (addAt updateAt : Option Int)

def Bookmark.title : Bookmark → String
  | .mk t _ _ _ _ _ => t

def Bookmark.url : Bookmark → String
  | .mk _ u _ _ _ _ => u

def Bookmark.parent : Bookmark → String
  | .mk _ _ p _ _ _ => p

def Bookmark.bookmarks : Bookmark → List Bookmark
  | .mk _ _ _ bs _ _ => bs

def Bookmark.addAt : Bookmark → Option Int
  | .mk _ _ _ _ a _ => a

def Bookmark.updateAt : Bookmark → Option Int
  | .mk _ _ _ _ _ m => m

/-- The zero value `Bookmark{}` of the source: empty strings, nil slice,
nil time pointers. -/
def defaultBookmark : Bookmark := .mk "" "" "" [] none none

/-- Append one child to a record's child list, leaving every other field
unchanged (the only mutation `buildSubTree` performs on a placed node). -/
def Bookmark.appendChild : Bookmark → Bookmark → Bookmark
  | .mk t u p bs a m, c => .mk t u p (bs ++ [c]) a m

/-- `strconv.ParseInt(s, 10, 64)`: optional single sign, decimal digits,
64-bit range check; `none` on any failure (syntax error or overflow). -/
def goParseInt (s : String) : Option Int :=
  match s.data with
  | [] => none
  | c :: rest =>
    let (neg, digits) :=
      if c = '-' then (true, rest)
      else if c = '+' then (false, rest)
      else (false, c :: rest)
    if digits = [] then none
    else if digits.all (fun d => d.isDigit) then
      let n : Nat := digits.foldl (fun acc d => acc * 10 + (d.toNat - '0'.toNat)) 0
      let v : Int := if neg then -(n : Int) else (n : Int)
      if -(2 ^ 63) ≤ v ∧ v ≤ 2 ^ 63 - 1 then some v else none
    else none

/-- `parseTime`: empty attribute yields an absent instant; otherwise the
attribute is parsed as decimal epoch seconds, a parse failure again
yielding an absent instant. -/
def parseTime (timestamp : String) : Option Int :=
  if timestamp.length = 0 then none
  else goParseInt timestamp

/-- Whether `parseTime` takes its error-logging branch (`fmt.Println` on a
non-empty attribute `strconv.ParseInt` rejects). -/
def parseTimeLogs (timestamp : String) : Bool :=
  if timestamp.length = 0 then false
  else (goParseInt timestamp).isNone

/-- Element-tree model of the parsed HTML document: element nodes carry a
tag, an attribute list, and children; text nodes carry their text. -/
inductive Node where
  | elem (tag : String) (attrs : List (String × String)) (children : List Node)
  | text (s : String)

def Node.isElem : Node → Bool
  | .elem _ _ _ => true
  | .text _ => false

def Node.tagIs (t : String) : Node → Bool
  | .elem tg _ _ => tg = t
  | .text _ => false

/-- `AttrOr`: attribute lookup with a default. -/
def Node.attrOr : Node → String → String → String
  | .elem _ attrs _, key, dflt =>
    match attrs.find? (fun p => p.1 = key) with
    | some p => p.2
    | none => dflt
  | .text _, _, dflt => dflt

def Node.childNodes : Node → List Node
  | .elem _ _ cs => cs
  | .text _ => []

/-- First element node of a sibling list (goquery sibling navigation skips
text nodes). -/
def firstElem (l : List Node) : Option Node :=
  l.find? Node.isElem

/-- `Text()`: concatenated text of all text nodes of the subtree. -/
def textOf : Node → String
  | .text s => s
  | .elem _ _ cs => textList cs
where
  textList : List Node → String
  | [] => ""
  | [c] => textOf c
  | c :: cs => textOf c ++ textList cs

/-- One hit of `doc.Find("H3")` together with the context the extractor
reads: the following element sibling (`header.Next()`) and the grandparent
information used for `header.Parent().Parent()` / `.Prev()`. -/
structure H3Hit where
  node : Node
  nextSib : Option Node
  grand : Option (String × Option Node)

/-- The parent-title computation of the extractor: the grandparent must be
a `DL` whose previous element sibling is an `H3`; that heading's text is
the parent title, otherwise it is empty. -/
def parentTitleFrom (gp : Option (String × Option Node)) : String :=
  match gp with
  | some (qt, some pv) => if qt = "DL" ∧ pv.tagIs "H3" then textOf pv else ""
  | _ => ""

mutual

/-- Collect every `H3` of this node's subtree, in document order. `next`
is the node's following element sibling, `pInfo` describes the node's
parent (its tag and its previous element sibling), `gp` describes the
node's grandparent the same way (this is what `Parent().Parent()` and its
`Prev()` read), and the last argument is the node's own previous element
sibling. -/
def hitsNode : Node → Option Node → Option (String × Option Node) →
    Option (String × Option Node) → Option Node → List H3Hit
  | .text _, _, _, _, _ => []
  | .elem tg attrs cs, next, pInfo, gp, prev =>
    (if tg = "H3" then [⟨.elem tg attrs cs, next, gp⟩] else [])
      ++ hitsList cs (some (tg, prev)) pInfo none

/-- Walk a sibling list in document order collecting every `H3` with its
context. The second argument describes the list's owner element (tag and
previous element sibling) — the members' parent — and the third the
owner's parent — the members' grandparent; the last argument is the
running previous element sibling inside the list. -/
def hitsList : List Node → Option (String × Option Node) →
    Option (String × Option Node) → Option Node → List H3Hit
  | [], _, _, _ => []
  | c :: rest, pInfo, gp, prev =>
    hitsNode c (firstElem rest) pInfo gp prev
      ++ hitsList rest pInfo gp (if c.isElem then some c else prev)

end

/-- `doc.Find("H3")` in document order, each hit with its navigation
context. -/
def findH3 (doc : Node) : List H3Hit :=
  match doc with
  | Node.elem tg _ cs => hitsList cs (some (tg, none)) none none
  | Node.text _ => []

/-- Leaf record built from a `DT` list item whose first element child is an
anchor: title from the anchor text, URL from `href` (default empty),
timestamps from the anchor's attributes. `none` when the item holds no
anchor. -/
def linkOfDT (dt : Node) : Option Bookmark :=
  match firstElem dt.childNodes with
  | some a =>
    if a.tagIs "A" then
      some (.mk (textOf a) (a.attrOr "href" "") "" []
        (parseTime (a.attrOr "add_date" "")) (parseTime (a.attrOr "last_modified" "")))
    else none
  | none => none

/-- Link children of a folder heading: if the element following the
heading is a `DL`, its `DT` element children that wrap anchors, in order;
otherwise no children. -/
def linkChildren : Option Node → List Bookmark
  | some dl =>
    if dl.tagIs "DL" then
      ((dl.childNodes.filter Node.isElem).filter (Node.tagIs "DT")).filterMap linkOfDT
    else []
  | none => []

/-- The flat record the extractor builds for one `H3` hit. -/
def extractRecord (h : H3Hit) : Bookmark :=
  .mk (textOf h.node) "" (parentTitleFrom h.grand) (linkChildren h.nextSib)
    (parseTime (h.node.attrOr "add_date" "")) (parseTime (h.node.attrOr "last_modified" ""))

/-- `parseBookmarks` (slice variant): one flat record per `H3` heading, in
document order. -/
def parseBookmarks (doc : Node) : List Bookmark :=
  (findH3 doc).map extractRecord

/-- Go map assignment `m[k] = v` on an association-list model: replace the
existing binding in place, else add one. -/
def goMapInsert (m : List (String × Bookmark)) (k : String) (v : Bookmark) :
    List (String × Bookmark) :=
  if m.any (fun p => p.1 = k) then
    m.map (fun p => if p.1 = k then (k, v) else p)
  else m ++ [(k, v)]

/-- `parseBookmarks` (map variant): the same records stored in
`bookmarkMap` keyed by title, later writes overwriting earlier ones. The
program then emits the map's values in Go's unspecified map iteration
order, so a run's flat collection is some permutation of these values. -/
def parseBookmarksMap (doc : Node) : List (String × Bookmark) :=
  (findH3 doc).foldl (fun m h => let b := extractRecord h; goMapInsert m b.title b) []

/-- The value multiset of the bookmark map, in insertion order; an actual
run emits some permutation of this list. -/
def mapValues (m : List (String × Bookmark)) : List Bookmark :=
  m.map Prod.snd

/-- `findRootFolder`: first record whose parent title is empty. -/
def findRootFolder : List Bookmark → Option Bookmark
  | [] => none
  | b :: rest => if b.parent = "" then some b else findRootFolder rest

/-- The scan loop of `buildSubTree`: walk the flat collection, appending
every record whose parent title equals the (fixed) title of the node under
construction, the appended copy first being completed by the recursive
call `next`. -/
def scanStep (next : Bookmark → Option Bookmark) (parent : Bookmark) :
    List Bookmark → Option Bookmark
  | [] => some parent
  | b :: rest =>
    if b.parent = parent.title then
      match next b with
      | none => none
      | some child => scanStep next (parent.appendChild child) rest
    else scanStep next parent rest

/-- `buildSubTree`, with fuel standing for the call stack: each recursive
level consumes one unit, and exhaustion (`none`) models the unbounded
recursion of the source, which has no cycle guard. -/
def buildSubTree : Nat → Bookmark → List Bookmark → Option Bookmark
  | 0, _, _ => none
  | fuel + 1, parent, all => scanStep (fun b => buildSubTree fuel b all) parent all

/-- `buildTree`: find the root record (reporting `root folder not found`
and returning the zero value when there is none), then build the whole
tree under it. The `List String` component collects the report lines. -/
def buildTree (fuel : Nat) (bookmarks : List Bookmark) :
    Option (List String × Bookmark) :=
  match findRootFolder bookmarks with
  | none => some (["root folder not found"], defaultBookmark)
  | some root =>
    match buildSubTree fuel root bookmarks with
    | none => none
    | some t => some ([], t)

/-- Scan loop of the instrumented builder `buildSubTreeT`: identical to
`scanStep` but also returning the list of flat records attached, in
attachment order (the root's own subtree first). -/
def scanStepT (next : Bookmark → Option (Bookmark × List Bookmark))
    (parent : Bookmark) : List Bookmark → Option (Bookmark × List Bookmark)
  | [] => some (parent, [])
  | b :: rest =>
    if b.parent = parent.title then
      match next b with
      | none => none
      | some (child, tr1) =>
        match scanStepT next (parent.appendChild child) rest with
        | none => none
        | some (p, tr2) => some (p, b :: (tr1 ++ tr2))
    else scanStepT next parent rest

/-- `buildSubTree` instrumented with the trace of attached records; its
tree component agrees with `buildSubTree` (proved below). -/
def buildSubTreeT : Nat → Bookmark → List Bookmark → Option (Bookmark × List Bookmark)
  | 0, _, _ => none
  | fuel + 1, parent, all => scanStepT (fun b => buildSubTreeT fuel b all) parent all

/-- `buildTree` instrumented with the trace of attached records. -/
def buildTreeT (fuel : Nat) (bookmarks : List Bookmark) :
    Option (List String × Bookmark × List Bookmark) :=
  match findRootFolder bookmarks with
  | none => some (["root folder not found"], defaultBookmark, [])
  | some root =>
    match buildSubTreeT fuel root bookmarks with
    | none => none
    | some (t, tr) => some ([], t, tr)

/-- JSON value model for the serialized output. -/
inductive Json where
  | str (s : String)
  | num (n : Int)
  | obj (fields : List (String × Json))
  | arr (elems : List Json)

mutual

/-- Whether a JSON value contains an object field named `k`, at any
nesting depth. -/
def jsonHasKey (k : String) : Json → Bool
  | .str _ => false
  | .num _ => false
  | .obj fs => fieldsHasKey k fs
  | .arr xs => elemsHasKey k xs

def fieldsHasKey (k : String) : List (String × Json) → Bool
  | [] => false
  | (k', v) :: fs => (k' = k : Bool) || jsonHasKey k v || fieldsHasKey k fs

def elemsHasKey (k : String) : List Json → Bool
  | [] => false
  | v :: vs => jsonHasKey k v || elemsHasKey k vs

end

mutual

/-- `json.Marshal` on `Bookmark`: `title` always; `url`, `bookmarks`,
`addAt`, `updateAt` with `omitempty`; the parent field tagged `json:"-"`
is never emitted. Timestamps are emitted as their epoch seconds. -/
def marshal : Bookmark → Json
  | .mk t u _ bs a m =>
    Json.obj ([("title", Json.str t)]
      ++ (if u = "" then [] else [("url", Json.str u)])
      ++ (match bs with
          | [] => []
          | _ :: _ => [("bookmarks", Json.arr (marshalList bs))])
      ++ (match a with | none => [] | some n => [("addAt", Json.num n)])
      ++ (match m with | none => [] | some n => [("updateAt", Json.num n)]))

def marshalList : List Bookmark → List Json
  | [] => []
  | b :: bs => marshal b :: marshalList bs

end

/-- Decimal rendering of an integer. -/
def renderInt (n : Int) : String :=
  if n < 0 then "-" ++ Nat.repr n.natAbs else Nat.repr n.natAbs

/-- Escape quotes and backslashes of a rendered string. -/
def escapeStr : List Char → String
  | [] => ""
  | c :: cs =>
    (if c = '"' then "\\\"" else if c = '\\' then "\\\\" else String.singleton c)
      ++ escapeStr cs

mutual

/-- Byte-level rendering of a JSON value (quote and backslash escaped; the
inputs in scope contain no other characters needing escapes). -/
def renderJson : Json → String
  | .str s => "\"" ++ escapeStr s.data ++ "\""
  | .num n => renderInt n
  | .obj fs => "\x7b" ++ renderFields fs ++ "\x7d"
  | .arr xs => "[" ++ renderElems xs ++ "]"

def renderFields : List (String × Json) → String
  | [] => ""
  | [(k, v)] => "\"" ++ k ++ "\":" ++ renderJson v
  | (k, v) :: fs => "\"" ++ k ++ "\":" ++ renderJson v ++ "," ++ renderFields fs

def renderElems : List Json → String
  | [] => ""
  | [v] => renderJson v
  | v :: vs => renderJson v ++ "," ++ renderElems vs

end

/-- Number of nodes with a given title in a built tree. -/
def countTitle (t : String) : Bookmark → Nat
  | .mk t' _ _ bs _ _ =>
    (if t' = t then 1 else 0) + countTitleList t bs
where
  countTitleList (t : String) : List Bookmark → Nat
  | [] => 0
  | b :: bs => countTitle t b + countTitleList t bs

/-- Days from 1970-01-01 to the given Gregorian calendar date (valid for
years ≥ 1; Howard Hinnant's civil-from-days algorithm, used here to give
calendar meaning to epoch values). -/
def daysFromCivil (y m d : Nat) : Int :=
  let y' := y - (if m ≤ 2 then 1 else 0)
  let era := y' / 400
  let yoe := y' % 400
  let doy := (153 * (m + (if m > 2 then 0 else 12) - 3) + 2) / 5 + (d - 1)
  let doe := yoe * 365 + yoe / 4 - yoe / 100 + doy
  (era * 146097 + doe : Int) - 719468

/-- Unix epoch seconds of a Gregorian UTC date-time. -/
def epochOfCivil (y m d hh mi ss : Nat) : Int :=
  daysFromCivil y m d * 86400 + (hh * 3600 + mi * 60 + ss : Nat)

/-- A well-formed Netscape-style document: one root folder with two links
and one subfolder that itself contains one link (titles and URLs are
parameters). -/
def docC2 (tR tS u1 t1 u2 t2 u3 t3 : String) : Node :=
  Node.elem "BODY" [] [
    Node.elem "DT" [] [
      Node.elem "H3" [] [Node.text tR],
      Node.elem "DL" [] [
        Node.elem "DT" [] [Node.elem "A" [("href", u1)] [Node.text t1]],
        Node.elem "DT" [] [Node.elem "A" [("href", u2)] [Node.text t2]],
        Node.elem "DT" [] [Node.elem "H3" [] [Node.text tS],
          Node.elem "DL" [] [Node.elem "DT" [] [Node.elem "A" [("href", u3)] [Node.text t3]]]]]]]

/-- A document whose folder `F` holds one link carrying
`add_date="1634454300"` and one link with no timestamp attributes. -/
def docC7 : Node :=
  Node.elem "BODY" [] [
    Node.elem "DT" [] [
      Node.elem "H3" [] [Node.text "F"],
      Node.elem "DL" [] [
        Node.elem "DT" []
          [Node.elem "A" [("href", "http://x"), ("add_date", "1634454300")] [Node.text "x"]],
        Node.elem "DT" [] [Node.elem "A" [("href", "http://y")] [Node.text "y"]]]]]

/-- A document with a root folder `R` holding two sibling subfolders `A`
and `B`. -/
def docC5 : Node :=
  Node.elem "BODY" [] [
    Node.elem "DT" [] [
      Node.elem "H3" [] [Node.text "R"],
      Node.elem "DL" [] [
        Node.elem "DT" [] [Node.elem "H3" [] [Node.text "A"]],
        Node.elem "DT" [] [Node.elem "H3" [] [Node.text "B"]]]]]

/-- Flat collection holding one root folder record and two folder records
sharing one title, each carrying its own single pre-attached link child. -/
def collC1 (tR tW : String) (l1 l2 : Bookmark) : List Bookmark :=
  [Bookmark.mk tR "" "" [] none none,
   Bookmark.mk tW "" tR [l1] none none,
   Bookmark.mk tW "" tR [l2] none none]

/-- One run of the slice-variant program on a document: extract, build,
marshal, render. -/
def runSlicePipeline (doc : Node) (fuel : Nat) : Option String :=
  (buildTree fuel (parseBookmarks doc)).map (fun p => renderJson (marshal p.2))

/-- One run of the map-variant program given the flat collection the run's
map iteration order produced: build, marshal, render. -/
def runMapPipeline (flat : List Bookmark) (fuel : Nat) : Option String :=
  (buildTree fuel flat).map (fun p => renderJson (marshal p.2))

/-- `ChainTo all t l t'`: the records `l`, drawn from `all`, form a
parent-title chain starting beneath title `t` (the first record's parent
title is `t`, each next record's parent title is its predecessor's title)
and ending at title `t'` (the last record's title, or `t` when empty).
The builder's recursion descends along exactly these chains. -/
inductive ChainTo (all : List Bookmark) : String → List Bookmark → String → Prop where
  | nil (t : String) : ChainTo all t [] t
  | cons {t t' : String} (c : Bookmark) (l : List Bookmark) :
      c ∈ all → c.parent = t → ChainTo all c.title l t' → ChainTo all t (c :: l) t'

/-- A flat collection whose parent-title chains are acyclic: no nonempty
chain returns to its starting title. -/
def Acyclic (all : List Bookmark) : Prop :=
  ∀ t l, ChainTo all t l t → l = []

theorem appendChild_title (p c : Bookmark) : (p.appendChild c).title = p.title := by
  cases p; rfl

theorem fieldsHasKey_append (k : String) (l1 l2 : List (String × Json)) :
    fieldsHasKey k (l1 ++ l2) = (fieldsHasKey k l1 || fieldsHasKey k l2) := by
  induction l1 with
  | nil => simp [fieldsHasKey]
  | cons p l1 ih => cases p; simp [fieldsHasKey, ih, Bool.or_assoc]

mutual

theorem marshal_key_subset : ∀ (b : Bookmark) (k : String),
    k ≠ "title" → k ≠ "url" → k ≠ "bookmarks" → k ≠ "addAt" → k ≠ "updateAt" →
    jsonHasKey k (marshal b) = false
  | .mk t u p bs a m, k, h1, h2, h3, h4, h5 => by
    have hl : elemsHasKey k (marshalList bs) = false :=
      marshalList_key_subset bs k h1 h2 h3 h4 h5
    by_cases hu : u = "" <;> rcases bs with _ | ⟨b0, bs0⟩ <;> rcases a with _ | av <;>
        rcases m with _ | mv <;>
      simp [marshal, jsonHasKey, fieldsHasKey, fieldsHasKey_append, hu, hl,
        decide_eq_false_iff_not, Ne.symm h1, Ne.symm h2, Ne.symm h3, Ne.symm h4, Ne.symm h5]

theorem marshalList_key_subset : ∀ (bs : List Bookmark) (k : String),
    k ≠ "title" → k ≠ "url" → k ≠ "bookmarks" → k ≠ "addAt" → k ≠ "updateAt" →
    elemsHasKey k (marshalList bs) = false
  | [], _, _, _, _, _, _ => rfl
  | b :: bs, k, h1, h2, h3, h4, h5 => by
    have hb := marshal_key_subset b k h1 h2 h3 h4 h5
    have hbs := marshalList_key_subset bs k h1 h2 h3 h4 h5
    simp [marshalList, elemsHasKey, hb, hbs]

end

theorem findRootFolder_none (l : List Bookmark) (h : ∀ b ∈ l, b.parent ≠ "") :
    findRootFolder l = none := by
  induction l with
  | nil => rfl
  | cons b rest ih =>
    simp only [findRootFolder, if_neg (h b (List.mem_cons_self b rest))]
    exact ih (fun x hx => h x (List.mem_cons_of_mem b hx))

theorem findRootFolder_first (l1 l2 : List Bookmark) (r : Bookmark)
    (h1 : ∀ b ∈ l1, b.parent ≠ "") (hr : r.parent = "") :
    findRootFolder (l1 ++ r :: l2) = some r := by
  induction l1 with
  | nil => simp [findRootFolder, hr]
  | cons b rest ih =>
    simp only [List.cons_append, findRootFolder, if_neg (h1 b (List.mem_cons_self b rest))]
    exact ih (fun x hx => h1 x (List.mem_cons_of_mem b hx))

theorem scanStepT_fst (next : Bookmark → Option Bookmark)
    (nextT : Bookmark → Option (Bookmark × List Bookmark))
    (hn : ∀ b, (nextT b).map Prod.fst = next b) :
    ∀ (rest : List Bookmark) (parent : Bookmark),
      (scanStepT nextT parent rest).map Prod.fst = scanStep next parent rest := by
  intro rest
  induction rest with
  | nil => intro parent; rfl
  | cons b rest ih =>
    intro parent
    by_cases hb : b.parent = parent.title
    · cases hnb : nextT b with
      | none =>
        have hx : next b = none := by rw [← hn b, hnb]; rfl
        simp [scanStepT, scanStep, hb, hnb, hx]
      | some pr =>
        obtain ⟨ch, tr1⟩ := pr
        have hx : next b = some ch := by rw [← hn b, hnb]; rfl
        have hih := ih (parent.appendChild ch)
        cases hs : scanStepT nextT (parent.appendChild ch) rest with
        | none =>
          rw [hs] at hih
          simp [scanStepT, scanStep, hb, hnb, hx, hs, ← hih]
        | some qr =>
          rw [hs] at hih
          simp [scanStepT, scanStep, hb, hnb, hx, hs, ← hih]
    · simp [scanStepT, scanStep, hb, ih parent]

theorem buildSubTreeT_fst (fuel : Nat) :
    ∀ (parent : Bookmark) (all : List Bookmark),
      (buildSubTreeT fuel parent all).map Prod.fst = buildSubTree fuel parent all := by
  induction fuel with
  | zero => intro parent all; rfl
  | succ f ih =>
    intro parent all
    simp only [buildSubTreeT, buildSubTree]
    exact scanStepT_fst _ _ (fun b => ih b all) all parent

theorem buildTreeT_proj (fuel : Nat) (all : List Bookmark) :
    (buildTreeT fuel all).map (fun p => (p.1, p.2.1)) = buildTree fuel all := by
  cases hr : findRootFolder all with
  | none => simp [buildTreeT, buildTree, hr]
  | some root =>
    have h := buildSubTreeT_fst fuel root all
    cases hb : buildSubTreeT fuel root all with
    | none =>
      rw [hb] at h
      simp [buildTreeT, buildTree, hr, hb, ← h]
    | some pr =>
      rw [hb] at h
      simp [buildTreeT, buildTree, hr, hb, ← h]

theorem scanStepT_trace_parent (next : Bookmark → Option (Bookmark × List Bookmark))
    (hnext : ∀ b t1 tr1, next b = some (t1, tr1) →
      ∀ r ∈ tr1, r.parent ∈ b.title :: tr1.map Bookmark.title)
    (T : String) :
    ∀ (rest : List Bookmark) (parent : Bookmark), parent.title = T →
      ∀ t tr, scanStepT next parent rest = some (t, tr) →
        ∀ r ∈ tr, r.parent ∈ T :: tr.map Bookmark.title := by
  intro rest
  induction rest with
  | nil =>
    intro parent hT t tr h r hr
    simp only [scanStepT, Option.some.injEq, Prod.mk.injEq] at h
    rw [← h.2] at hr
    exact absurd hr (List.not_mem_nil r)
  | cons b rest ih =>
    intro parent hT t tr h r hr
    by_cases hb : b.parent = parent.title
    · cases hnb : next b with
      | none => simp [scanStepT, hb, hnb] at h
      | some pr =>
        obtain ⟨child, tr1⟩ := pr
        cases hs : scanStepT next (parent.appendChild child) rest with
        | none => simp [scanStepT, hb, hnb, hs] at h
        | some qr =>
          obtain ⟨p2, tr2⟩ := qr
          simp only [scanStepT, if_pos hb, hnb, hs, Option.some.injEq, Prod.mk.injEq] at h
          rw [← h.2] at hr
          simp only [List.map_cons, List.map_append, List.mem_cons, List.mem_append] at hr ⊢
          rw [← h.2]
          simp only [List.map_cons, List.map_append, List.mem_cons, List.mem_append]
          rcases hr with rfl | hr1 | hr2
          · exact Or.inl (by rw [hb, hT])
          · have hp := hnext b child tr1 hnb r hr1
            rcases List.mem_cons.mp hp with he | hm
            · exact Or.inr (Or.inl he)
            · rcases List.mem_map.mp hm with ⟨c, hcm, hce⟩
              exact Or.inr (Or.inr (Or.inl (by rw [← hce]; exact List.mem_map.mpr ⟨c, hcm, rfl⟩)))
          · have hp := ih (parent.appendChild child)
              (by rw [appendChild_title]; exact hT) p2 tr2 hs r hr2
            rcases List.mem_cons.mp hp with he | hm
            · exact Or.inl he
            · exact Or.inr (Or.inr (Or.inr hm))
    · simp only [scanStepT, if_neg hb] at h
      exact ih parent hT t tr h r hr

theorem buildSubTreeT_trace_parent :
    ∀ (fuel : Nat) (parent : Bookmark) (all : List Bookmark) (t : Bookmark) (tr : List Bookmark),
      buildSubTreeT fuel parent all = some (t, tr) →
      ∀ r ∈ tr, r.parent ∈ parent.title :: tr.map Bookmark.title := by
  intro fuel
  induction fuel with
  | zero =>
    intro parent all t tr h
    exact absurd h (by simp [buildSubTreeT])
  | succ f ih =>
    intro parent all t tr h
    exact scanStepT_trace_parent _ (fun b t1 tr1 hb => ih b all t1 tr1 hb)
      parent.title all parent rfl t tr h

theorem chainTo_append {all : List Bookmark} {l1 : List Bookmark} :
    ∀ {t t' t'' : String} {l2 : List Bookmark}, ChainTo all t l1 t' →
      ChainTo all t' l2 t'' → ChainTo all t (l1 ++ l2) t'' := by
  induction l1 with
  | nil =>
    intro t t' t'' l2 h1 h2
    cases h1
    simpa using h2
  | cons c l ih =>
    intro t t' t'' l2 h1 h2
    cases h1 with
    | cons _ _ hm hp hc => exact ChainTo.cons c _ hm hp (ih hc h2)

theorem chainTo_split {all : List Bookmark} {l1 l2 : List Bookmark} :
    ∀ {t t'' : String}, ChainTo all t (l1 ++ l2) t'' →
      ∃ t', ChainTo all t l1 t' ∧ ChainTo all t' l2 t'' := by
  induction l1 with
  | nil => intro t t'' h; exact ⟨t, ChainTo.nil t, h⟩
  | cons c l ih =>
    intro t t'' h
    cases h with
    | cons _ _ hm hp hc =>
      obtain ⟨tm, h1, h2⟩ := ih hc
      exact ⟨tm, ChainTo.cons c l hm hp h1, h2⟩

theorem chainTo_mem {all : List Bookmark} {t l t'} (h : ChainTo all t l t') :
    ∀ x ∈ l, x ∈ all := by
  induction h with
  | nil => intro x hx; exact absurd hx (List.not_mem_nil x)
  | cons c l hm hp hc ih =>
    intro x hx
    rcases List.mem_cons.mp hx with rfl | hx'
    · exact hm
    · exact ih x hx'

theorem map_not_nodup_split {α β : Type} (f : α → β) :
    ∀ (l : List α), ¬(l.map f).Nodup →
      ∃ u x v y w, l = u ++ x :: v ++ y :: w ∧ f x = f y := by
  intro l
  induction l with
  | nil => intro h; simp at h
  | cons a l ih =>
    intro h
    by_cases ha : f a ∈ l.map f
    · obtain ⟨y, hy, hfy⟩ := List.mem_map.mp ha
      obtain ⟨v, w, rfl⟩ := List.append_of_mem hy
      exact ⟨[], a, v, y, w, by simp, hfy.symm⟩
    · have hnl : ¬(l.map f).Nodup := fun hn => h (by simp [List.nodup_cons, ha, hn])
      obtain ⟨u, x, v, y, w, rfl, hxy⟩ := ih hnl
      exact ⟨a :: u, x, v, y, w, rfl, hxy⟩

theorem chain_length_le {all : List Bookmark} (hac : Acyclic all) {t l t'}
    (h : ChainTo all t l t') : l.length ≤ all.length := by
  by_contra hlen
  push_neg at hlen
  by_cases hnd : (l.map Bookmark.title).Nodup
  · have hsub : (l.map Bookmark.title) ⊆ (all.map Bookmark.title) := by
      intro s hs
      obtain ⟨c, hc, rfl⟩ := List.mem_map.mp hs
      exact List.mem_map.mpr ⟨c, chainTo_mem h c hc, rfl⟩
    have hle := (List.subperm_of_subset hnd hsub).length_le
    simp only [List.length_map] at hle
    omega
  · obtain ⟨u, x, v, y, w, hl, hxy⟩ := map_not_nodup_split Bookmark.title l hnd
    rw [hl] at h
    obtain ⟨tm1, hu, hyw⟩ := chainTo_split h
    obtain ⟨tm0, hu0, hxv⟩ := chainTo_split hu
    cases hxv with
    | cons _ _ hxm hxp hxc =>
      cases hyw with
      | cons _ _ hym hyp hcw =>
        have hcyc : ChainTo all x.title (v ++ [y]) y.title :=
          chainTo_append hxc (ChainTo.cons y [] hym hyp (ChainTo.nil y.title))
        rw [← hxy] at hcyc
        have := hac _ _ hcyc
        simp at this

theorem scanStep_none_of_mem (next : Bookmark → Option Bookmark)
    (c : Bookmark) (hc : next c = none) :
    ∀ (rest : List Bookmark) (parent : Bookmark), c ∈ rest → c.parent = parent.title →
      scanStep next parent rest = none := by
  intro rest
  induction rest with
  | nil => intro parent h; exact absurd h (List.not_mem_nil c)
  | cons b rest ih =>
    intro parent hmem hpar
    rcases List.mem_cons.mp hmem with rfl | hmem'
    · simp [scanStep, hpar, hc]
    · by_cases hb : b.parent = parent.title
      · cases hnb : next b with
        | none => simp [scanStep, hb, hnb]
        | some ch =>
          simp only [scanStep, if_pos hb, hnb]
          exact ih (parent.appendChild ch) hmem' (by rw [appendChild_title]; exact hpar)
      · simp only [scanStep, if_neg hb]
        exact ih parent hmem' hpar

theorem scanStep_some_of_all (next : Bookmark → Option Bookmark) (T : String) :
    ∀ (rest : List Bookmark) (parent : Bookmark), parent.title = T →
      (∀ c ∈ rest, c.parent = T → ∃ r, next c = some r) →
      ∃ r, scanStep next parent rest = some r := by
  intro rest
  induction rest with
  | nil => intro parent _ _; exact ⟨parent, rfl⟩
  | cons b rest ih =>
    intro parent hT hall
    by_cases hb : b.parent = parent.title
    · obtain ⟨ch, hch⟩ := hall b (List.mem_cons_self b rest) (by rw [← hT]; exact hb)
      obtain ⟨r, hr⟩ := ih (parent.appendChild ch) (by rw [appendChild_title]; exact hT)
        (fun c hcm hp => hall c (List.mem_cons_of_mem b hcm) hp)
      exact ⟨r, by simp only [scanStep, if_pos hb, hch]; exact hr⟩
    · obtain ⟨r, hr⟩ := ih parent hT (fun c hcm hp => hall c (List.mem_cons_of_mem b hcm) hp)
      exact ⟨r, by simp only [scanStep, if_neg hb]; exact hr⟩

theorem buildSubTree_none_of_long_chain :
    ∀ (fuel : Nat) (parent : Bookmark) (all : List Bookmark) (l : List Bookmark) (t' : String),
      ChainTo all parent.title l t' → fuel ≤ l.length →
      buildSubTree fuel parent all = none := by
  intro fuel
  induction fuel with
  | zero => intro parent all l t' _ _; rfl
  | succ f ih =>
    intro parent all l t' hch hlen
    cases hch with
    | nil => exact absurd hlen (by simp)
    | cons c l2 hm hp hc =>
      have hnone : buildSubTree f c all = none :=
        ih c all l2 t' hc (by simp at hlen; omega)
      simp only [buildSubTree]
      exact scanStep_none_of_mem _ c hnone all parent hm hp

theorem buildSubTree_some_of_bound :
    ∀ (fuel : Nat) (parent : Bookmark) (all : List Bookmark),
      (∀ l t', ChainTo all parent.title l t' → l.length < fuel) →
      ∃ r, buildSubTree fuel parent all = some r := by
  intro fuel
  induction fuel with
  | zero =>
    intro parent all h
    exact absurd (h [] parent.title (ChainTo.nil _)) (by simp)
  | succ f ih =>
    intro parent all h
    simp only [buildSubTree]
    exact scanStep_some_of_all _ parent.title all parent rfl
      (fun c hc hp => ih c all (fun l t' hch => by
        have := h (c :: l) t' (ChainTo.cons c l hc hp hch)
        simp at this
        omega))

theorem chainTo_pow {all : List Bookmark} {t : String} {l : List Bookmark}
    (h : ChainTo all t l t) : ∀ k, ∃ L, ChainTo all t L t ∧ L.length = k * l.length := by
  intro k
  induction k with
  | zero => exact ⟨[], ChainTo.nil t, by simp⟩
  | succ n ih =>
    obtain ⟨L, hL, hlen⟩ := ih
    refine ⟨l ++ L, chainTo_append h hL, ?_⟩
    simp [List.length_append, hlen]
    ring

/-- C3: for every flat collection in which no record has an empty parent
title, tree building reports "root folder not found" and returns the
default (zero-value) node, at any fuel (the failure path never recurses,
so it never crashes), and the returned node is not a record of the
collection. -/
theorem missing_root_reported (all : List Bookmark) (fuel : Nat)
    (h : ∀ b ∈ all, b.parent ≠ "") :
    buildTree fuel all = some (["root folder not found"], defaultBookmark) ∧
    defaultBookmark ∉ all :=
  ⟨by simp [buildTree, findRootFolder_none all h],
   fun hm => h defaultBookmark hm rfl⟩

/-- Witness for C3 at a concrete one-record collection whose record has a
non-empty parent title. -/
theorem missing_root_reported_witness :
    buildTree 0 [Bookmark.mk "A" "" "B" [] none none] =
      some (["root folder not found"], defaultBookmark) ∧
    defaultBookmark ∉ [Bookmark.mk "A" "" "B" [] none none] :=
  missing_root_reported [Bookmark.mk "A" "" "B" [] none none] 0 (by decide)

/-- C6: timestamp parsing is total and non-fatal: the empty attribute
yields an absent instant without logging; a non-empty attribute rejected
by the integer parser yields an absent instant and takes the logging
branch; and extraction still produces one record per folder heading of
any document, so no timestamp failure aborts it. -/
theorem parseTime_nonfatal :
    (∀ s : String, s = "" → parseTime s = none ∧ parseTimeLogs s = false) ∧
    (∀ s : String, s ≠ "" → goParseInt s = none →
      parseTime s = none ∧ parseTimeLogs s = true) ∧
    (∀ doc : Node, (parseBookmarks doc).length = (findH3 doc).length) := by
  refine ⟨?_, ?_, ?_⟩
  · intro s hs
    subst hs
    exact ⟨rfl, rfl⟩
  · intro s hs hg
    have hlen : ¬s.length = 0 := by
      intro h0
      apply hs
      cases s with
      | mk data =>
        cases data with
        | nil => rfl
        | cons c cs => simp [String.length] at h0
    constructor
    · simp [parseTime, hlen, hg]
    · simp [parseTimeLogs, hlen, hg]
  · intro doc
    simp [parseBookmarks]

/-- Witness for C6 at the empty string, a non-numeric string, and a
concrete document. -/
theorem parseTime_nonfatal_witness :
    (parseTime "" = none ∧ parseTimeLogs "" = false) ∧
    (parseTime "xyz" = none ∧ parseTimeLogs "xyz" = true) ∧
    (parseBookmarks docC7).length = (findH3 docC7).length :=
  ⟨parseTime_nonfatal.1 "" rfl,
   parseTime_nonfatal.2.1 "xyz" (by decide) (by decide),
   parseTime_nonfatal.2.2 docC7⟩

/-- C9: the serialized output never contains a `parent` (or `parentTitle`)
field on any node, at any nesting depth: the parent field is build-time
bookkeeping excluded from the marshalled representation. -/
theorem output_excludes_parent (b : Bookmark) :
    jsonHasKey "parent" (marshal b) = false ∧
    jsonHasKey "parentTitle" (marshal b) = false :=
  ⟨marshal_key_subset b "parent" (by decide) (by decide) (by decide) (by decide) (by decide),
   marshal_key_subset b "parentTitle" (by decide) (by decide) (by decide) (by decide) (by decide)⟩

/-- C7 counterexample: the link carrying `add_date="1634454300"` gets
`addAt = 1634454300` epoch seconds, but that value is not the instant
2021-10-17T15:05:00 UTC (it is 07:05:00 UTC, i.e. 15:05:00 at UTC+8), so
the claimed UTC-equivalent instant is wrong. -/
theorem addAt_instant_cx :
    (parseBookmarks docC7).map (fun b => b.bookmarks.map Bookmark.addAt) =
      [[some 1634454300, none]] ∧
    (1634454300 : Int) ≠ epochOfCivil 2021 10 17 15 5 0 := by
  constructor
  · rfl
  · decide

/-- C7 amended: a link with `add_date="1634454300"` yields `addAt` equal
to the instant 2021-10-17T07:05:00 UTC (the decimal attribute parsed as
Unix epoch seconds; 15:05:00 only at the exporter's UTC+8 offset), and a
link with no `add_date` yields an absent `addAt` whose field is omitted
from the serialized output. -/
theorem addAt_epoch_parsing :
    (parseBookmarks docC7).map (fun b => b.bookmarks.map Bookmark.addAt) =
      [[some (epochOfCivil 2021 10 17 7 5 0), none]] ∧
    (parseBookmarks docC7).map
        (fun b => b.bookmarks.map (fun l => jsonHasKey "addAt" (marshal l))) =
      [[true, false]] := by
  constructor
  · rfl
  · rfl

/-- C8: tree building terminates (at some fuel) on every flat collection
whose parent-title chains are acyclic; and whenever a title cycle
(self-referential record or longer cycle) is reachable from the root
record's title, the recursion exhausts every fuel: the unguarded source
recursion is infinite there. -/
theorem tree_build_termination :
    (∀ all : List Bookmark, Acyclic all → ∃ fuel r, buildTree fuel all = some r) ∧
    (∀ (all : List Bookmark) (root : Bookmark) (lp lc : List Bookmark) (t0 : String),
      findRootFolder all = some root → ChainTo all root.title lp t0 →
      ChainTo all t0 lc t0 → lc ≠ [] → ∀ fuel, buildTree fuel all = none) := by
  constructor
  · intro all hac
    cases hr : findRootFolder all with
    | none =>
      exact ⟨0, (["root folder not found"], defaultBookmark), by simp [buildTree, hr]⟩
    | some root =>
      obtain ⟨r, hb⟩ := buildSubTree_some_of_bound (all.length + 1) root all
        (fun l t' hch => Nat.lt_succ_of_le (chain_length_le hac hch))
      exact ⟨all.length + 1, ([], r), by simp [buildTree, hr, hb]⟩
  · intro all root lp lc t0 hroot hlp hlc hne fuel
    obtain ⟨L, hL, hlen⟩ := chainTo_pow hlc fuel
    have hchain : ChainTo all root.title (lp ++ L) t0 := chainTo_append hlp hL
    have hlenge : fuel ≤ (lp ++ L).length := by
      have h1 : 0 < lc.length := List.length_pos.mpr hne
      have h2 : fuel ≤ fuel * lc.length := Nat.le_mul_of_pos_right fuel h1
      rw [List.length_append, hlen]
      omega
    have hnone := buildSubTree_none_of_long_chain fuel root all (lp ++ L) t0 hchain hlenge
    simp [buildTree, hroot, hnone]

/-- Witness for C8: the empty collection is acyclic and terminates; the
collection with root `R` and a record titled `R` whose parent title is
also `R` (a reachable self-cycle) exhausts fuel 5 (as any fuel). -/
theorem tree_build_termination_witness :
    (∃ fuel r, buildTree fuel ([] : List Bookmark) = some r) ∧
    buildTree 5 [Bookmark.mk "R" "" "" [] none none,
      Bookmark.mk "R" "" "R" [] none none] = none := by
  constructor
  · exact tree_build_termination.1 [] (fun t l h => by
      cases h with
      | nil => rfl
      | cons c l hm => exact absurd hm (List.not_mem_nil c))
  · exact tree_build_termination.2
      [Bookmark.mk "R" "" "" [] none none, Bookmark.mk "R" "" "R" [] none none]
      (Bookmark.mk "R" "" "" [] none none) [] [Bookmark.mk "R" "" "R" [] none none] "R"
      rfl (ChainTo.nil "R")
      (ChainTo.cons _ []
        (List.mem_cons_of_mem _ (List.mem_cons_self _ _)) rfl (ChainTo.nil _))
      (by simp) 5

/-- C2: on a well-formed document with one root folder holding two links
and one subfolder with one link (titles nonempty and distinct), extraction
followed by tree building yields exactly the one root node with the root
folder's title, a child list of length 3 (the two links then the
subfolder), and one child inside the subfolder. -/
theorem wellformed_roundtrip (tR tS u1 t1 u2 t2 u3 t3 : String)
    (h1 : tR ≠ "") (h2 : tS ≠ "") (h3 : tS ≠ tR) :
    buildTree 2 (parseBookmarks (docC2 tR tS u1 t1 u2 t2 u3 t3)) =
      some ([], .mk tR "" ""
        [.mk t1 u1 "" [] none none, .mk t2 u2 "" [] none none,
         .mk tS "" tR [.mk t3 u3 "" [] none none] none none] none none) := by
  have hext : parseBookmarks (docC2 tR tS u1 t1 u2 t2 u3 t3) =
      [Bookmark.mk tR "" ""
         [.mk t1 u1 "" [] none none, .mk t2 u2 "" [] none none] none none,
       Bookmark.mk tS "" tR [.mk t3 u3 "" [] none none] none none] := rfl
  rw [hext]
  simp [buildTree, findRootFolder, buildSubTree, scanStep, Bookmark.appendChild,
    Bookmark.parent, Bookmark.title, Ne.symm h1, Ne.symm h2, Ne.symm h3]

/-- Witness for C2 at concrete titles and URLs. -/
theorem wellformed_roundtrip_witness :
    buildTree 2 (parseBookmarks (docC2 "Bar" "Sub" "u1" "A" "u2" "B" "u3" "C")) =
      some ([], .mk "Bar" "" ""
        [.mk "A" "u1" "" [] none none, .mk "B" "u2" "" [] none none,
         .mk "Sub" "" "Bar" [.mk "C" "u3" "" [] none none] none none] none none) :=
  wellformed_roundtrip "Bar" "Sub" "u1" "A" "u2" "B" "u3" "C"
    (by decide) (by decide) (by decide)

/-- C1 counterexample: a flat collection that contains two folder records
both titled "Work", each with its own single link child, builds to a tree
with two nodes titled "Work", not exactly one. -/
theorem duplicate_titles_not_merged_cx :
    (buildTree 2 (collC1 "Root" "Work" (.mk "a" "ua" "" [] none none)
        (.mk "b" "ub" "" [] none none))).map (fun p => countTitle "Work" p.2) =
      some 2 := rfl

/-- C1 amended: when the flat collection contains two folder records
sharing a title (nonempty, distinct from the nonempty root title), each
carrying its own link child, the built tree has two sibling nodes with
that title, in collection order, each keeping exactly its own folder's
links; the folders are not merged into one node. -/
theorem duplicate_titles_two_nodes (tR tW : String) (l1 l2 : Bookmark)
    (h1 : tR ≠ "") (h2 : tW ≠ "") (h3 : tW ≠ tR) :
    buildTree 2 (collC1 tR tW l1 l2) =
      some ([], .mk tR "" ""
        [.mk tW "" tR [l1] none none, .mk tW "" tR [l2] none none] none none) := by
  simp [buildTree, collC1, findRootFolder, buildSubTree, scanStep,
    Bookmark.appendChild, Bookmark.parent, Bookmark.title,
    Ne.symm h1, Ne.symm h2, Ne.symm h3]

/-- Witness for the amended C1 at concrete titles and links. -/
theorem duplicate_titles_two_nodes_witness :
    buildTree 2 (collC1 "Root" "Work" (.mk "a" "ua" "" [] none none)
        (.mk "b" "ub" "" [] none none)) =
      some ([], .mk "Root" "" ""
        [.mk "Work" "" "Root" [.mk "a" "ua" "" [] none none] none none,
         .mk "Work" "" "Root" [.mk "b" "ub" "" [] none none] none none] none none) :=
  duplicate_titles_two_nodes "Root" "Work" (.mk "a" "ua" "" [] none none)
    (.mk "b" "ub" "" [] none none) (by decide) (by decide) (by decide)

/-- C5 counterexample: the map-variant extractor stores the records of
`docC5` in a Go map whose values here are root `R` and subfolders `A`,
`B`; two legitimate iteration orders of that same map — a permutation of
one another — make the pipeline render different bytes, so a rerun on the
same document is not guaranteed byte-identical output. -/
theorem pipeline_not_bytewise_deterministic_cx :
    mapValues (parseBookmarksMap docC5) =
      [Bookmark.mk "R" "" "" [] none none, Bookmark.mk "A" "" "R" [] none none,
       Bookmark.mk "B" "" "R" [] none none] ∧
    List.Perm
      [Bookmark.mk "R" "" "" [] none none, Bookmark.mk "B" "" "R" [] none none,
       Bookmark.mk "A" "" "R" [] none none]
      (mapValues (parseBookmarksMap docC5)) ∧
    runMapPipeline (mapValues (parseBookmarksMap docC5)) 2 ≠
      runMapPipeline [Bookmark.mk "R" "" "" [] none none,
        Bookmark.mk "B" "" "R" [] none none,
        Bookmark.mk "A" "" "R" [] none none] 2 := by
  have h : mapValues (parseBookmarksMap docC5) =
      [Bookmark.mk "R" "" "" [] none none, Bookmark.mk "A" "" "R" [] none none,
       Bookmark.mk "B" "" "R" [] none none] := rfl
  refine ⟨h, ?_, ?_⟩
  · rw [h]
    exact List.Perm.cons _ (List.Perm.swap _ _ _)
  · rw [h]
    decide

/-- C5 amended: the slice-variant pipeline is a function of the document
alone, so two runs on the same document give identical bytes; the
map-variant pipeline is a function of the document together with the
run's map iteration order, so only runs whose iteration orders linearize
the map identically are guaranteed identical bytes (the counterexample
shows different orders can differ). -/
theorem pipeline_determinism_amended :
    (∀ (doc : Node) (fuel : Nat), runSlicePipeline doc fuel = runSlicePipeline doc fuel) ∧
    (∀ (flat1 flat2 : List Bookmark) (fuel : Nat), flat1 = flat2 →
      runMapPipeline flat1 fuel = runMapPipeline flat2 fuel) :=
  ⟨fun _ _ => rfl, fun _ _ _ h => by rw [h]⟩

/-- Witness for the amended C5 at the concrete document `docC5`. -/
theorem pipeline_determinism_amended_witness :
    runSlicePipeline docC5 2 = runSlicePipeline docC5 2 ∧
    runMapPipeline (mapValues (parseBookmarksMap docC5)) 2 =
      runMapPipeline (mapValues (parseBookmarksMap docC5)) 2 :=
  ⟨pipeline_determinism_amended.1 docC5 2,
   pipeline_determinism_amended.2 (mapValues (parseBookmarksMap docC5))
     (mapValues (parseBookmarksMap docC5)) 2 rfl⟩

/-- C4: in a successful build (root found), no error line is reported,
and any record of the collection whose parent title matches no placed
node's title (neither the root's title nor any attached record's) is
never attached: it appears nowhere in the built tree. -/
theorem orphan_record_dropped (fuel : Nat) (all : List Bookmark) (root : Bookmark)
    (logs : List String) (tree : Bookmark) (trace : List Bookmark)
    (hroot : findRootFolder all = some root)
    (hrun : buildTreeT fuel all = some (logs, tree, trace)) :
    buildTree fuel all = some (logs, tree) ∧ logs = [] ∧
    ∀ r ∈ all, r.parent ∉ root.title :: trace.map Bookmark.title → r ∉ trace := by
  have hproj := buildTreeT_proj fuel all
  rw [hrun] at hproj
  simp only [Option.map_some'] at hproj
  refine ⟨hproj.symm, ?_⟩
  simp only [buildTreeT, hroot] at hrun
  cases hb : buildSubTreeT fuel root all with
  | none =>
    simp only [hb] at hrun
    exact Option.noConfusion hrun
  | some p =>
    obtain ⟨t, tr⟩ := p
    simp only [hb, Option.some.injEq, Prod.mk.injEq] at hrun
    obtain ⟨hL, hT, hTr⟩ := hrun
    refine ⟨hL.symm, ?_⟩
    intro r _ hnp hrtr
    apply hnp
    have hmem := buildSubTreeT_trace_parent fuel root all t tr hb r (by rw [hTr]; exact hrtr)
    rw [hTr] at hmem
    exact hmem

/-- Witness for C4: a record with parent title `ZZ` matching nothing is
absent from the (empty) attachment trace of a concrete build. -/
theorem orphan_record_dropped_witness :
    buildTree 2 [Bookmark.mk "R" "" "" [] none none,
        Bookmark.mk "O" "" "ZZ" [] none none] =
      some ([], Bookmark.mk "R" "" "" [] none none) ∧
    (Bookmark.mk "O" "" "ZZ" [] none none) ∉ ([] : List Bookmark) := by
  have h := orphan_record_dropped 2
    [Bookmark.mk "R" "" "" [] none none, Bookmark.mk "O" "" "ZZ" [] none none]
    (Bookmark.mk "R" "" "" [] none none) [] (Bookmark.mk "R" "" "" [] none none) []
    rfl rfl
  exact ⟨h.1, h.2.2 (Bookmark.mk "O" "" "ZZ" [] none none)
    (List.mem_cons_of_mem _ (List.mem_cons_self _ _)) (by decide)⟩

/-- C10: with several root candidates, `findRootFolder` silently selects
the earliest record in collection order whose parent title is empty; a
successful build reports no error; and another root candidate can only be
attached if the empty string occurs among the placed nodes' titles. -/
theorem multiple_roots_first_selected (l1 l2 : List Bookmark) (r : Bookmark) (fuel : Nat)
    (h1 : ∀ b ∈ l1, b.parent ≠ "") (hr : r.parent = "") :
    findRootFolder (l1 ++ r :: l2) = some r ∧
    (∀ logs tree trace, buildTreeT fuel (l1 ++ r :: l2) = some (logs, tree, trace) →
      logs = [] ∧
      ∀ r' ∈ trace, r'.parent = "" → "" ∈ r.title :: trace.map Bookmark.title) := by
  have hfind := findRootFolder_first l1 l2 r h1 hr
  refine ⟨hfind, ?_⟩
  intro logs tree trace hrun
  simp only [buildTreeT, hfind] at hrun
  cases hb : buildSubTreeT fuel r (l1 ++ r :: l2) with
  | none =>
    simp only [hb] at hrun
    exact Option.noConfusion hrun
  | some p =>
    obtain ⟨t, tr⟩ := p
    simp only [hb, Option.some.injEq, Prod.mk.injEq] at hrun
    obtain ⟨hL, hT, hTr⟩ := hrun
    refine ⟨hL.symm, ?_⟩
    intro r' hr' hp'
    have hmem := buildSubTreeT_trace_parent fuel r _ t tr hb r' (by rw [hTr]; exact hr')
    rw [hTr] at hmem
    rw [hp'] at hmem
    exact hmem

/-- Witness for C10: of two root candidates `R1`, `R2`, the first is
selected and the build reports nothing. -/
theorem multiple_roots_first_selected_witness :
    findRootFolder [Bookmark.mk "R1" "" "" [] none none,
        Bookmark.mk "R2" "" "" [] none none] =
      some (Bookmark.mk "R1" "" "" [] none none) ∧
    ([] : List String) = [] :=
  ⟨(multiple_roots_first_selected [] [Bookmark.mk "R2" "" "" [] none none]
      (Bookmark.mk "R1" "" "" [] none none) 1 (by simp) rfl).1,
   ((multiple_roots_first_selected [] [Bookmark.mk "R2" "" "" [] none none]
      (Bookmark.mk "R1" "" "" [] none none) 1 (by simp) rfl).2
      [] (Bookmark.mk "R1" "" "" [] none none) [] rfl).1⟩
